import Mathlib

/-!
Verification development for the CellSearch detection-pipeline controller
(src/C++/src/CellSearch.cpp of the LTE-Cell-Scanner repository).

The controller logic is shallowly embedded: real-valued quantities that the
control flow compares exactly are embedded as rationals, the chi-squared
threshold mathematics as real numbers, machine integers as Int/Nat.
External collaborators (sss_detect, pss_sss_foe, tfoec, decode_mib) are
universally quantified stage functions on candidate cells.
-/

/-- Candidate cell record. Modelled from the spec: the Candidate Cell data
model (the C++ `Cell` class lives in searcher.h, which is not among the
sources here). Only the fields used by the controller in CellSearch.cpp are
modelled: `n_id_1` is the secondary-sync identity with -1 as the "not
found" sentinel, `n_id_cell` the cell identity (in C++ a derived accessor),
`fc` the nominal center frequency in Hz, `freq_superfine` the fine
frequency offset in Hz, `pss_pow` the correlation peak power, and `n_rb_dl`
the downlink bandwidth in resource blocks with -1 as the "not found"
sentinel. -/
structure Cell where
  n_id_1 : ℤ
  n_id_cell : ℤ
  fc : ℚ
  freq_superfine : ℚ
  pss_pow : ℚ
  n_rb_dl : ℤ
deriving DecidableEq

/-- Total corrected frequency of a candidate, the quantity
`(*it).fc + (*it).freq_superfine` compared in CellSearch.cpp line 263. -/
def corrFreq (c : Cell) : ℚ := c.fc + c.freq_superfine

/-- The match test of the dedup inner loop, CellSearch.cpp lines 261-264:
equal cell identities and corrected frequencies closer than 1 MHz. -/
def sameCell (a b : Cell) : Prop :=
  a.n_id_cell = b.n_id_cell ∧ |corrFreq a - corrFreq b| < 1000000

instance (a b : Cell) : Decidable (sameCell a b) :=
  decidable_of_iff (a.n_id_cell = b.n_id_cell ∧ |corrFreq a - corrFreq b| < 1000000)
    Iff.rfl

theorem sameCell_refl (a : Cell) : sameCell a a := by
  constructor
  · rfl
  · simp

theorem sameCell_symm {a b : Cell} (h : sameCell a b) : sameCell b a := by
  obtain ⟨h1, h2⟩ := h
  exact ⟨h1.symm, by rwa [abs_sub_comm]⟩

/-- Processing of one incoming cell against the accumulated `cells_final`
list: the inner `while (it_f != cells_final.end())` loop of `dedup`,
CellSearch.cpp lines 256-278. The list is scanned in order; at the first
match the stored cell is replaced iff the incoming cell has strictly
greater `pss_pow` and the scan stops; if no entry matches, the incoming
cell is appended at the end (`push_back`). -/
def dedupStep (c : Cell) : List Cell → List Cell
  | [] => [c]
  | f :: rest =>
    if sameCell c f then (if c.pss_pow > f.pss_pow then c else f) :: rest
    else f :: dedupStep c rest

/-- Deduplication over an already flattened candidate sequence (the order
in which `dedup` visits candidates: outer loop over center frequencies,
inner loop over each per-frequency list). -/
def dedupFlat (l : List Cell) : List Cell :=
  l.foldl (fun acc c => dedupStep c acc) []

/-- The `dedup` routine of CellSearch.cpp lines 248-282: `detected_cells`
is the vector of per-center-frequency candidate lists; the result is the
accumulated `cells_final`. -/
def dedup (detected_cells : List (List Cell)) : List Cell :=
  detected_cells.foldl (fun acc l => l.foldl (fun acc2 c => dedupStep c acc2) acc) []

theorem dedup_eq_dedupFlat (ll : List (List Cell)) :
    dedup ll = dedupFlat ll.flatten := by
  suffices h : ∀ (acc : List Cell),
      ll.foldl (fun acc l => l.foldl (fun acc2 c => dedupStep c acc2) acc) acc
        = ll.flatten.foldl (fun acc c => dedupStep c acc) acc by
    exact h []
  induction ll with
  | nil => intro acc; rfl
  | cons l ls ih =>
    intro acc
    simp only [List.flatten_cons, List.foldl_cons, List.foldl_append]
    exact ih _

theorem mem_dedupStep {x c : Cell} :
    ∀ {acc : List Cell}, x ∈ dedupStep c acc → x = c ∨ x ∈ acc := by
  intro acc
  induction acc with
  | nil =>
    intro h
    simp only [dedupStep, List.mem_singleton] at h
    exact Or.inl h
  | cons f rest ih =>
    intro h
    by_cases hm : sameCell c f
    · rw [dedupStep, if_pos hm] at h
      rcases List.mem_cons.mp h with h | h
      · by_cases hp : c.pss_pow > f.pss_pow
        · rw [if_pos hp] at h; exact Or.inl h
        · rw [if_neg hp] at h; exact Or.inr (h ▸ List.mem_cons_self f rest)
      · exact Or.inr (List.mem_cons_of_mem f h)
    · rw [dedupStep, if_neg hm] at h
      rcases List.mem_cons.mp h with h | h
      · exact Or.inr (h ▸ List.mem_cons_self f rest)
      · rcases ih h with h' | h'
        · exact Or.inl h'
        · exact Or.inr (List.mem_cons_of_mem f h')

theorem dedupStep_of_no_match {c : Cell} {acc : List Cell}
    (h : ∀ f ∈ acc, ¬ sameCell c f) : dedupStep c acc = acc ++ [c] := by
  induction acc with
  | nil => rfl
  | cons f rest ih =>
    have hf : ¬ sameCell c f := h f (List.mem_cons_self f rest)
    simp only [dedupStep, if_neg hf, List.cons_append, List.cons.injEq, true_and]
    exact ih fun g hg => h g (List.mem_cons_of_mem f hg)

theorem dedupStep_first_match {c f : Cell} (pre post : List Cell)
    (hpre : ∀ x ∈ pre, ¬ sameCell c x) (hf : sameCell c f) :
    dedupStep c (pre ++ f :: post)
      = pre ++ (if c.pss_pow > f.pss_pow then c else f) :: post := by
  induction pre with
  | nil => simp [dedupStep, if_pos hf]
  | cons a pre' ih =>
    have ha : ¬ sameCell c a := hpre a (List.mem_cons_self a pre')
    simp only [List.cons_append, dedupStep, if_neg ha, List.cons.injEq, true_and]
    exact ih fun x hx => hpre x (List.mem_cons_of_mem a hx)

/-- Claim C1: for two candidates with equal cell identity whose corrected
frequencies differ by less than 1 MHz, `dedup` keeps exactly the one with
strictly greater `pss_pow` (in either processing order); when the corrected
frequencies differ by 1 MHz or more, both survive as distinct entries. -/
theorem c1_dedup_pair (a b : Cell) (hid : a.n_id_cell = b.n_id_cell) :
    (|corrFreq a - corrFreq b| < 1000000 → a.pss_pow < b.pss_pow →
      dedup [[a], [b]] = [b] ∧ dedup [[b], [a]] = [b]) ∧
    (1000000 ≤ |corrFreq a - corrFreq b| →
      dedup [[a], [b]] = [a, b] ∧ dedup [[b], [a]] = [b, a]) := by
  have hstep : ∀ x y : Cell, dedup [[x], [y]] = dedupStep y [x] := by
    intro x y; rfl
  constructor
  · intro hfreq hpow
    have hba : sameCell b a := ⟨hid.symm, by rwa [abs_sub_comm]⟩
    have hab : sameCell a b := ⟨hid, hfreq⟩
    constructor
    · rw [hstep, dedupStep, if_pos hba, if_pos hpow]
    · rw [hstep, dedupStep, if_pos hab, if_neg (not_lt.mpr hpow.le)]
  · intro hfar
    have hba : ¬ sameCell b a := by
      rintro ⟨-, habs⟩
      rw [abs_sub_comm] at habs
      exact absurd hfar (not_le.mpr habs)
    have hab : ¬ sameCell a b := by
      rintro ⟨-, habs⟩
      exact absurd hfar (not_le.mpr habs)
    constructor
    · rw [hstep, dedupStep, if_neg hba, dedupStep]
    · rw [hstep, dedupStep, if_neg hab, dedupStep]

/-- Candidate used in concrete instances: cell id 1 at 0 Hz, power 1. -/
def cellP0 : Cell := ⟨0, 1, 0, 0, 1, 6⟩

/-- Candidate used in concrete instances: cell id 1 at 0.9 MHz, power 3. -/
def cellP9 : Cell := ⟨0, 1, 900000, 0, 3, 6⟩

/-- Candidate used in concrete instances: cell id 1 at 1.8 MHz, power 2. -/
def cellP18 : Cell := ⟨0, 1, 1800000, 0, 2, 6⟩

/-- Candidate used in concrete instances: cell id 1 at 5 MHz, power 2. -/
def cellFar : Cell := ⟨0, 1, 5000000, 0, 2, 6⟩

/-- Witness for claim C1 at concrete candidates: a close pair keeps only
the stronger cell, a pair 5 MHz apart keeps both. -/
theorem c1_dedup_pair_witness :
    dedup [[cellP0], [cellP9]] = [cellP9] ∧
    dedup [[cellP0], [cellFar]] = [cellP0, cellFar] := by
  constructor
  · exact ((c1_dedup_pair cellP0 cellP9 rfl).1
      (by norm_num [corrFreq, cellP0, cellP9])
      (by norm_num [cellP0, cellP9])).1
  · exact ((c1_dedup_pair cellP0 cellFar rfl).2
      (by norm_num [corrFreq, cellP0, cellFar])).1

/-- Claim C10: when the incoming candidate `c` first matches entry `f` of
the accumulated result list, the entry is kept unchanged whenever
`c.pss_pow ≤ f.pss_pow` (in particular on an exact power tie), and is
replaced by `c` exactly when `c.pss_pow` is strictly greater. -/
theorem c10_dedup_tie_keeps_first (pre post : List Cell) (f c : Cell)
    (hpre : ∀ x ∈ pre, ¬ sameCell c x) (hf : sameCell c f) :
    (c.pss_pow ≤ f.pss_pow → dedupStep c (pre ++ f :: post) = pre ++ f :: post) ∧
    (f.pss_pow < c.pss_pow → dedupStep c (pre ++ f :: post) = pre ++ c :: post) := by
  constructor
  · intro hle
    rw [dedupStep_first_match pre post hpre hf, if_neg (not_lt.mpr hle)]
  · intro hlt
    rw [dedupStep_first_match pre post hpre hf, if_pos hlt]

/-- Candidate with the same identity and frequency as `cellP0` and the same
power, used for the exact-tie instance. -/
def cellTie : Cell := ⟨0, 1, 100, 50, 1, 6⟩

/-- Witness for claim C10: an incoming candidate that ties the stored one
on `pss_pow` is discarded and the stored entry survives unchanged. -/
theorem c10_dedup_tie_keeps_first_witness :
    dedupStep cellTie ([] ++ cellP0 :: []) = [] ++ cellP0 :: [] := by
  exact (c10_dedup_tie_keeps_first [] [] cellP0 cellTie (by simp)
    (by constructor <;> norm_num [corrFreq, cellTie, cellP0])).1
    (by norm_num [cellTie, cellP0])

/-- Counterexample for claim C2: the same multiset of confirmed candidates,
presented in two different center-frequency processing orders, yields final
reports with different membership (sizes 1 and 2), and in the second order
the kept entry `cellP0` is matched by `cellP9` of strictly greater power,
so the kept candidate per group is not always the maximum-power one. The
three candidates share cell identity 1 and sit at 0, 0.9 and 1.8 MHz: the
1 MHz proximity relation is not transitive on them. -/
theorem c2_counterexample :
    ([[cellP0], [cellP9], [cellP18]].flatten).Perm
      ([[cellP18], [cellP0], [cellP9]].flatten) ∧
    (dedup [[cellP0], [cellP9], [cellP18]]).length = 1 ∧
    (dedup [[cellP18], [cellP0], [cellP9]]).length = 2 ∧
    cellP0 ∈ dedup [[cellP18], [cellP0], [cellP9]] ∧
    sameCell cellP0 cellP9 ∧ cellP0.pss_pow < cellP9.pss_pow := by
  refine ⟨?_, ?_, ?_, ?_, ?_, ?_⟩
  · have h : ([cellP0, cellP9] ++ [cellP18]).Perm ([cellP18] ++ [cellP0, cellP9]) :=
      List.perm_append_comm
    simpa using h
  · norm_num [dedup, dedupStep, sameCell, corrFreq, cellP0, cellP9, cellP18]
  · norm_num [dedup, dedupStep, sameCell, corrFreq, cellP0, cellP9, cellP18]
  · norm_num [dedup, dedupStep, sameCell, corrFreq, cellP0, cellP9, cellP18]
  · constructor <;> norm_num [corrFreq, cellP0, cellP9]
  · norm_num [cellP0, cellP9]

/-- The per-candidate pipeline loop of `main`, CellSearch.cpp lines
375-429, for one center frequency. The external collaborators are
abstracted as arbitrary cell transformers for the current capture buffer
and center frequency: `sss` is `sss_detect` (line 390), `foe` is
`pss_sss_foe` (line 398), `tf` is the combined effect of `extract_tfg` and
`tfoec` on the candidate (lines 403-411), `dec` is `decode_mib` (line 414).
A candidate whose secondary-sync detection leaves `n_id_1 = -1` is erased
before any later stage runs (lines 391-395); a candidate whose MIB decode
leaves `n_rb_dl = -1` is erased (lines 415-419); all others are kept,
fully transformed. -/
def runPipeline (sss foe tf dec : Cell → Cell) : List Cell → List Cell
  | [] => []
  | c :: rest =>
    let c1 := sss c
    if c1.n_id_1 = -1 then runPipeline sss foe tf dec rest
    else
      let c4 := dec (tf (foe c1))
      if c4.n_rb_dl = -1 then runPipeline sss foe tf dec rest
      else c4 :: runPipeline sss foe tf dec rest

/-- The final deduplicated report of `main`, CellSearch.cpp lines 331-434:
each per-center-frequency peak list runs through the candidate pipeline,
and `dedup` merges the per-frequency confirmed lists into `cells_final`. -/
def finalReport (sss foe tf dec : Cell → Cell)
    (peaksPerFreq : List (List Cell)) : List Cell :=
  dedup (peaksPerFreq.map (runPipeline sss foe tf dec))

theorem runPipeline_erase_sss_fail (sss foe tf dec : Cell → Cell)
    {c : Cell} (hc : (sss c).n_id_1 = -1) :
    ∀ (l1 l2 : List Cell),
      runPipeline sss foe tf dec (l1 ++ c :: l2) = runPipeline sss foe tf dec (l1 ++ l2) := by
  intro l1
  induction l1 with
  | nil =>
    intro l2
    simp only [List.nil_append, runPipeline, if_pos hc]
  | cons a t ih =>
    intro l2
    simp only [List.cons_append, runPipeline, List.append_eq, ih]

/-- Claim C3: a candidate for which `sss_detect` returns the sentinel
`n_id_1 = -1` is erased from its per-center-frequency list immediately (the
pipeline output is as if the candidate were absent, so no later stage sees
it), and the final deduplicated report is unchanged by its presence,
whatever its `pss_pow` and whatever the other pipeline stages do. -/
theorem c3_sss_fail_never_reported (sss foe tf dec : Cell → Cell)
    (ll1 ll2 : List (List Cell)) (l1 l2 : List Cell) (c : Cell)
    (hc : (sss c).n_id_1 = -1) :
    runPipeline sss foe tf dec (l1 ++ c :: l2) = runPipeline sss foe tf dec (l1 ++ l2) ∧
    finalReport sss foe tf dec (ll1 ++ (l1 ++ c :: l2) :: ll2)
      = finalReport sss foe tf dec (ll1 ++ (l1 ++ l2) :: ll2) := by
  refine ⟨runPipeline_erase_sss_fail sss foe tf dec hc l1 l2, ?_⟩
  unfold finalReport
  rw [List.map_append, List.map_cons, List.map_append, List.map_cons,
    runPipeline_erase_sss_fail sss foe tf dec hc l1 l2]

/-- Strong candidate that fails secondary-sync detection under the
identity-like stage functions used in the concrete instances. -/
def cellNoSss : Cell := ⟨-1, 7, 2000000, 0, 1000, 6⟩

/-- Stage function modelling an `sss_detect` that rejects every candidate
whose stored `n_id_1` is already the sentinel and accepts the rest. -/
def sssId : Cell → Cell := fun c => c

/-- Witness for claim C3: a candidate with huge `pss_pow` that fails
secondary-sync detection disappears from the pipeline output and from the
final report. -/
theorem c3_sss_fail_never_reported_witness :
    runPipeline sssId id id id ([] ++ cellNoSss :: [cellP0]) = runPipeline sssId id id id ([] ++ [cellP0]) ∧
    finalReport sssId id id id ([] ++ (([] : List Cell) ++ cellNoSss :: [cellP0]) :: [])
      = finalReport sssId id id id ([] ++ (([] : List Cell) ++ [cellP0]) :: []) :=
  c3_sss_fail_never_reported sssId id id id [] [] [] [cellP0] cellNoSss (by norm_num [sssId, cellNoSss])

theorem mem_runPipeline_n_rb_dl (sss foe tf dec : Cell → Cell) :
    ∀ (l : List Cell) (x : Cell), x ∈ runPipeline sss foe tf dec l → x.n_rb_dl ≠ -1 := by
  intro l
  induction l with
  | nil => intro x hx; simp [runPipeline] at hx
  | cons c rest ih =>
    intro x hx
    by_cases h1 : (sss c).n_id_1 = -1
    · rw [runPipeline, if_pos h1] at hx
      exact ih x hx
    · rw [runPipeline, if_neg h1] at hx
      by_cases h2 : (dec (tf (foe (sss c)))).n_rb_dl = -1
      · rw [if_pos h2] at hx
        exact ih x hx
      · rw [if_neg h2] at hx
        rcases List.mem_cons.mp hx with h | h
        · rw [h]; exact h2
        · exact ih x h

theorem mem_dedup_of_mem {x : Cell} :
    ∀ {ll : List (List Cell)}, x ∈ dedup ll → ∃ l ∈ ll, x ∈ l := by
  intro ll hx
  rw [dedup_eq_dedupFlat] at hx
  have hflat : x ∈ ll.flatten := by
    unfold dedupFlat at hx
    have main : ∀ (l : List Cell) (acc : List Cell),
        x ∈ l.foldl (fun acc c => dedupStep c acc) acc → x ∈ acc ∨ x ∈ l := by
      intro l
      induction l with
      | nil => intro acc h; exact Or.inl h
      | cons c t ih =>
        intro acc h
        rcases ih _ h with h' | h'
        · rcases mem_dedupStep h' with h'' | h''
          · exact Or.inr (h'' ▸ List.mem_cons_self c t)
          · exact Or.inl h''
        · exact Or.inr (List.mem_cons_of_mem c h')
    rcases main ll.flatten [] hx with h | h
    · simp at h
    · exact h
  exact List.mem_flatten.mp hflat

/-- Claim C4: every candidate surviving the per-center-frequency pipeline
loop carries a decoded downlink bandwidth (`n_rb_dl` is not the sentinel
-1), and hence so does every entry of the final deduplicated report. -/
theorem c4_confirmed_has_bandwidth (sss foe tf dec : Cell → Cell)
    (l : List Cell) (ll : List (List Cell)) (x : Cell) :
    (x ∈ runPipeline sss foe tf dec l → x.n_rb_dl ≠ -1) ∧
    (x ∈ finalReport sss foe tf dec ll → x.n_rb_dl ≠ -1) := by
  refine ⟨mem_runPipeline_n_rb_dl sss foe tf dec l x, fun hx => ?_⟩
  unfold finalReport at hx
  rcases mem_dedup_of_mem hx with ⟨l', hl', hxl'⟩
  rcases List.mem_map.mp hl' with ⟨l0, _, rfl⟩
  exact mem_runPipeline_n_rb_dl sss foe tf dec l0 x hxl'

/-- Witness for claim C4: a concrete one-candidate run whose report entry
has a decoded bandwidth. -/
theorem c4_confirmed_has_bandwidth_witness : cellP0.n_rb_dl ≠ -1 := by
  exact (c4_confirmed_has_bandwidth sssId id id id [cellP0] [[cellP0]] cellP0).2
    (by norm_num [finalReport, dedup, dedupStep, runPipeline, sssId, cellP0])

/-- Modelled from the spec: `itpp_ext::matlab_range(a, s, b)` (itpp_ext is
not among the sources here); the Matlab-style colon range `a : s : b` for a
positive step, i.e. the points `a + s*i` for `i = 0, 1, ...` while they do
not exceed `b`. -/
def matlab_range (a s b : ℤ) : List ℤ :=
  if a ≤ b ∧ 0 < s then
    (List.range ((b - a).toNat / s.toNat + 1)).map (fun i : ℕ => a + s * (i : ℤ))
  else []

/-- The extra-point count of the offset grid, CellSearch.cpp line 325:
`floor_i((freq_start*ppm/1e6+2.5e3)/5e3)`. -/
def n_extra (freq_start ppm : ℚ) : ℤ := ⌊(freq_start * ppm / 1000000 + 2500) / 5000⌋

/-- The frequency-offset search grid, CellSearch.cpp line 326:
`matlab_range(-n_extra*5000, 5000, n_extra*5000)`. -/
def f_search_set (freq_start ppm : ℚ) : List ℤ :=
  matlab_range (-(n_extra freq_start ppm) * 5000) 5000 (n_extra freq_start ppm * 5000)

theorem chain_arith (d : ℤ) : ∀ (k : ℕ) (a : ℤ),
    List.Chain' (fun p q => q = p + d) ((List.range k).map (fun i : ℕ => a + d * (i : ℤ))) := by
  intro k
  induction k with
  | zero => intro a; simp
  | succ n ih =>
    intro a
    rw [List.range_succ_eq_map]
    simp only [List.map_cons, List.map_map, Nat.cast_zero, mul_zero, add_zero]
    have hfun : ((fun i : ℕ => a + d * (i : ℤ)) ∘ Nat.succ)
        = (fun i : ℕ => (a + d) + d * (i : ℤ)) := by
      funext i
      simp only [Function.comp_apply]
      push_cast
      ring
    rw [hfun]
    rw [List.chain'_cons']
    refine ⟨?_, ih (a + d)⟩
    intro y hy
    rcases n with - | m
    · simp at hy
    · rw [List.range_succ_eq_map] at hy
      simp only [List.map_cons, List.head?_cons, Option.mem_def, Option.some.injEq] at hy
      omega

/-- Claim C5, amended: for nonnegative `freq_start` and `ppm` the offset
grid is exactly the arithmetic progression from `-n_extra*5000` to
`n_extra*5000`, symmetric around zero and spaced exactly 5000 Hz; its outer
bound `n_extra*5000` is the largest multiple of 5000 that is at most
`freq_start*ppm/1e6 + 2500` (it exceeds that quantity minus 5000, but —
contrary to the claim as stated — need not reach it). -/
theorem c5_offset_grid (fs ppm : ℚ) (hfs : 0 ≤ fs) (hppm : 0 ≤ ppm) :
    f_search_set fs ppm
      = (List.range (2 * (n_extra fs ppm).toNat + 1)).map
          (fun i : ℕ => -(n_extra fs ppm) * 5000 + 5000 * (i : ℤ)) ∧
    (∀ z : ℤ, z ∈ f_search_set fs ppm ↔ -z ∈ f_search_set fs ppm) ∧
    List.Chain' (fun p q => q = p + 5000) (f_search_set fs ppm) ∧
    ((n_extra fs ppm * 5000 : ℤ) : ℚ) ≤ fs * ppm / 1000000 + 2500 ∧
    fs * ppm / 1000000 + 2500 - 5000 < ((n_extra fs ppm * 5000 : ℤ) : ℚ) := by
  have hXnn : (0:ℚ) ≤ (fs * ppm / 1000000 + 2500) / 5000 := by positivity
  have hn : 0 ≤ n_extra fs ppm := Int.le_floor.mpr (by exact_mod_cast hXnn)
  have hmain : f_search_set fs ppm
      = (List.range (2 * (n_extra fs ppm).toNat + 1)).map
          (fun i : ℕ => -(n_extra fs ppm) * 5000 + 5000 * (i : ℤ)) := by
    rw [f_search_set, matlab_range, if_pos ⟨by omega, by omega⟩]
    have h5 : (5000:ℤ).toNat = 5000 := rfl
    rw [h5]
    congr 2
    omega
  refine ⟨hmain, ?_, ?_, ?_, ?_⟩
  · have haux : ∀ z : ℤ, z ∈ f_search_set fs ppm → -z ∈ f_search_set fs ppm := by
      intro z hz
      rw [hmain] at hz ⊢
      simp only [List.mem_map, List.mem_range] at hz ⊢
      obtain ⟨i, hi, hiz⟩ := hz
      exact ⟨2 * (n_extra fs ppm).toNat - i, by omega, by omega⟩
    intro z
    constructor
    · exact haux z
    · intro h
      have h2 := haux (-z) h
      rwa [neg_neg] at h2
  · rw [hmain]
    exact chain_arith 5000 _ _
  · have hfl : ((n_extra fs ppm : ℤ) : ℚ) ≤ (fs * ppm / 1000000 + 2500) / 5000 :=
      Int.floor_le _
    push_cast
    linarith
  · have hlt : (fs * ppm / 1000000 + 2500) / 5000 < (n_extra fs ppm : ℚ) + 1 :=
      Int.lt_floor_add_one _
    push_cast
    linarith

/-- Witness for claim C5 at `freq_start` 100 MHz, `ppm` 30: the grid is
`[-5000, 0, 5000]` and the stated bounds hold. -/
theorem c5_offset_grid_witness :
    f_search_set 100000000 30
      = (List.range (2 * (n_extra 100000000 30).toNat + 1)).map
          (fun i : ℕ => -(n_extra 100000000 30) * 5000 + 5000 * (i : ℤ)) ∧
    (∀ z : ℤ, z ∈ f_search_set 100000000 30 ↔ -z ∈ f_search_set 100000000 30) ∧
    List.Chain' (fun p q => q = p + 5000) (f_search_set 100000000 30) ∧
    ((n_extra 100000000 30 * 5000 : ℤ) : ℚ) ≤ 100000000 * 30 / 1000000 + 2500 ∧
    (100000000 : ℚ) * 30 / 1000000 + 2500 - 5000 < ((n_extra 100000000 30 * 5000 : ℤ) : ℚ) :=
  c5_offset_grid 100000000 30 (by norm_num) (by norm_num)

/-- Counterexample for claim C5 as stated: at `freq_start` 100 MHz and
`ppm` 30 the excursion target `freq_start*ppm/1e6 + 2500 = 5500` Hz, but
`n_extra = 1` and the outer bound of the generated grid is 5000 Hz, which
is strictly below the target, refuting `n_extra*5000 ≥
freq_start*ppm/1e6 + 2500`. -/
theorem c5_counterexample :
    n_extra 100000000 30 = 1 ∧
    f_search_set 100000000 30 = [-5000, 0, 5000] ∧
    ¬ ((100000000 * 30 / 1000000 + 2500 : ℚ) ≤ ((n_extra 100000000 30 * 5000 : ℤ) : ℚ)) := by
  have hn : n_extra 100000000 30 = 1 := by norm_num [n_extra]
  refine ⟨hn, ?_, ?_⟩
  · rw [f_search_set, hn]
    norm_num [matlab_range]
    decide
  · rw [hn]
    norm_num

/-- Modelled from the spec: `itpp::round` (ITPP is not among the sources
here), rounding to the nearest integer, with half-way values rounded
up. Only the raster warnings of `parse_commandline` use it. -/
def itpp_round (q : ℚ) : ℤ := ⌊q + 1/2⌋

/-- A frequency rounded to the nearest multiple of 100 kHz, the value
`itpp::round(freq/100e3)*100e3` of CellSearch.cpp lines 195 and 206. -/
def round100k (q : ℚ) : ℚ := ((itpp_round (q / 100000) : ℤ) : ℚ) * 100000

/-- The raster normalization of CellSearch.cpp lines 194-197 (and
205-208): a frequency not on the 100 kHz raster is replaced by the nearest
raster point, an on-raster frequency is kept. -/
def rasterize (q : ℚ) : ℚ :=
  if q / 100000 ≠ ((itpp_round (q / 100000) : ℤ) : ℚ) then round100k q else q

/-- The second-order sanity checking of `parse_commandline`,
CellSearch.cpp lines 187-225, on the already parsed numeric values
(`freq_end = -1` encodes an absent `--freq-end`): the `exit(-1)` calls are
embedded as errors, the returned pair is the normalized
`(freq_start, freq_end)`. -/
def parse_commandline (freq_start freq_end ppm : ℚ) : Except String (ℚ × ℚ) :=
  if freq_start < 1000000 then Except.error "start frequency must be greater than 1MHz"
  else if (if freq_end = -1 then rasterize freq_start else freq_end) < rasterize freq_start then
    Except.error "end frequency must be >= start frequency"
  else if ppm < 0 then Except.error "ppm value must be positive"
  else Except.ok (rasterize freq_start,
    rasterize (if freq_end = -1 then rasterize freq_start else freq_end))

/-- Observer distinguishing a fatal configuration error (nonzero process
exit) from successful parameter validation. -/
def isErr {α : Type} : Except String α → Bool
  | .error _ => true
  | .ok _ => false

theorem rasterize_eq (q : ℚ) : rasterize q = round100k q := by
  rw [rasterize]
  by_cases h : q / 100000 ≠ ((itpp_round (q / 100000) : ℤ) : ℚ)
  · rw [if_pos h]
  · rw [if_neg h]
    push_neg at h
    rw [round100k, ← h]
    field_simp

/-- Claim C6, amended: parameter validation fails fatally whenever
`freq_start < 1 MHz`, whenever `ppm < 0`, and whenever `freq_end ≥ 0` is
less than `freq_start` rounded to the nearest multiple of 100 kHz — the
comparison is made against the rounded start frequency, not (as the claim
states) against `freq_start` itself. -/
theorem c6_parse_errors : ∀ fs fe ppm : ℚ,
    (fs < 1000000 → isErr (parse_commandline fs fe ppm) = true) ∧
    (ppm < 0 → isErr (parse_commandline fs fe ppm) = true) ∧
    (0 ≤ fe → fe < round100k fs → isErr (parse_commandline fs fe ppm) = true) := by
  intro fs fe ppm
  refine ⟨?_, ?_, ?_⟩
  · intro h
    rw [parse_commandline, if_pos h]
    rfl
  · intro h
    rw [parse_commandline]
    by_cases h1 : fs < 1000000
    · rw [if_pos h1]; rfl
    · rw [if_neg h1]
      by_cases h2 : (if fe = -1 then rasterize fs else fe) < rasterize fs
      · rw [if_pos h2]; rfl
      · rw [if_neg h2, if_pos h]; rfl
  · intro hfe hlt
    rw [parse_commandline]
    by_cases h1 : fs < 1000000
    · rw [if_pos h1]; rfl
    · rw [if_neg h1]
      have hne : fe ≠ -1 := by intro h; rw [h] at hfe; norm_num at hfe
      have h2 : (if fe = -1 then rasterize fs else fe) < rasterize fs := by
        rw [if_neg hne, rasterize_eq]
        exact hlt
      rw [if_pos h2]
      rfl

/-- Witness for claim C6: each of the three error conditions fires at a
concrete configuration. -/
theorem c6_parse_errors_witness :
    isErr (parse_commandline 500000 (-1) 100) = true ∧
    isErr (parse_commandline 2000000 (-1) (-5)) = true ∧
    isErr (parse_commandline 2000000 1000000 100) = true := by
  refine ⟨(c6_parse_errors 500000 (-1) 100).1 (by norm_num),
    (c6_parse_errors 2000000 (-1) (-5)).2.1 (by norm_num),
    (c6_parse_errors 2000000 1000000 100).2.2 (by norm_num) ?_⟩
  norm_num [round100k, itpp_round]

/-- Counterexample for claim C6 as stated: `freq_start = 1000049 >
freq_end = 1000020 ≥ 0`, yet validation succeeds, because `freq_start` is
first rounded down to the raster point 1000000 and only then compared with
`freq_end`. -/
theorem c6_counterexample :
    isErr (parse_commandline 1000049 1000020 100) = false ∧
    (0:ℚ) ≤ 1000020 ∧ (1000020:ℚ) < 1000049 := by
  refine ⟨?_, by norm_num, by norm_num⟩
  have hr : rasterize (1000049 : ℚ) = 1000000 := by
    rw [rasterize_eq, round100k]
    norm_num [itpp_round]
  rw [parse_commandline, if_neg (by norm_num), hr]
  rw [if_neg (by norm_num), if_neg (by norm_num)]
  rfl

/-- The correction-factor computation of CellSearch.cpp lines 461-468:
`true_location` is the decoded cell's nominal center frequency,
`crystal_freq_actual` the oscillator's inferred actual frequency, and the
new factor multiplies the correction that was in effect during capture by
their ratio. -/
def correction_new (correction fc freq_superfine : ℚ) : ℚ :=
  let true_location := fc
  let crystal_freq_actual := fc - freq_superfine
  let correction_residual := true_location / crystal_freq_actual
  correction * correction_residual

/-- Claim C9: the reported correction factor equals
`previous_correction * (fc / (fc - fine_frequency_offset))`, and at
`fc = 1e9` Hz, offset 100 Hz, previous correction 1 it equals
`1e9 / (1e9 - 100)`. -/
theorem c9_correction_factor :
    (∀ correction fc fs : ℚ,
      correction_new correction fc fs = correction * (fc / (fc - fs))) ∧
    correction_new 1 1000000000 100 = 1000000000 / (1000000000 - 100) := by
  refine ⟨fun correction fc fs => rfl, ?_⟩
  rw [correction_new]
  norm_num

theorem exists_pow_max : ∀ (l : List Cell), l ≠ [] →
    ∃ m ∈ l, ∀ z ∈ l, z.pss_pow ≤ m.pss_pow := by
  intro l
  induction l with
  | nil => intro h; exact absurd rfl h
  | cons a t ih =>
    intro _
    by_cases ht : t = []
    · subst ht
      refine ⟨a, List.mem_cons_self a [], ?_⟩
      intro z hz
      rw [List.mem_singleton] at hz
      rw [hz]
    · obtain ⟨m, hm, hmax⟩ := ih ht
      by_cases hcmp : m.pss_pow ≤ a.pss_pow
      · refine ⟨a, List.mem_cons_self a t, ?_⟩
        intro z hz
        rcases List.mem_cons.mp hz with rfl | hz'
        · exact le_refl _
        · exact (hmax z hz').trans hcmp
      · refine ⟨m, List.mem_cons_of_mem a hm, ?_⟩
        intro z hz
        rcases List.mem_cons.mp hz with rfl | hz'
        · exact (not_le.mp hcmp).le
        · exact hmax z hz'

theorem exists_group_rep (l : List Cell)
    (Htrans : ∀ a ∈ l, ∀ b ∈ l, ∀ c ∈ l, sameCell a b → sameCell b c → sameCell a c)
    {y : Cell} (hy : y ∈ l) :
    ∃ m ∈ l, sameCell y m ∧ ∀ z ∈ l, sameCell m z → z.pss_pow ≤ m.pss_pow := by
  have hyl : y ∈ l.filter (fun z => decide (sameCell y z)) :=
    List.mem_filter.mpr ⟨hy, by simp [sameCell_refl]⟩
  have hne : l.filter (fun z => decide (sameCell y z)) ≠ [] := by
    intro h
    rw [h] at hyl
    exact absurd hyl (List.not_mem_nil y)
  obtain ⟨m, hm, hmax⟩ := exists_pow_max _ hne
  have hm' := List.mem_filter.mp hm
  have hym : sameCell y m := by simpa using hm'.2
  refine ⟨m, hm'.1, hym, ?_⟩
  intro z hz hmz
  have hyz : sameCell y z := Htrans y hy m hm'.1 z hz hym hmz
  exact hmax z (List.mem_filter.mpr ⟨hz, by simpa⟩)

theorem dedupFlat_append (l : List Cell) (c : Cell) :
    dedupFlat (l ++ [c]) = dedupStep c (dedupFlat l) := by
  rw [dedupFlat, List.foldl_append]
  rfl

theorem dedupFlat_char : ∀ (l : List Cell),
    (∀ a ∈ l, ∀ b ∈ l, ∀ c ∈ l, sameCell a b → sameCell b c → sameCell a c) →
    (∀ a ∈ l, ∀ b ∈ l, sameCell a b → a.pss_pow = b.pss_pow → a = b) →
    (dedupFlat l).Nodup ∧
      (∀ x, x ∈ dedupFlat l ↔ x ∈ l ∧ ∀ y ∈ l, sameCell x y → y.pss_pow ≤ x.pss_pow) := by
  intro l
  induction l using List.reverseRecOn with
  | nil =>
    intro _ _
    exact ⟨List.nodup_nil, by simp [dedupFlat]⟩
  | append_singleton l c ih =>
    intro Htrans Hties
    have hmem : ∀ z ∈ l, z ∈ l ++ [c] := fun z hz => List.mem_append_left _ hz
    have hcmem : c ∈ l ++ [c] := List.mem_append_right _ (List.mem_singleton.mpr rfl)
    have Htl : ∀ a ∈ l, ∀ b ∈ l, ∀ d ∈ l, sameCell a b → sameCell b d → sameCell a d :=
      fun a ha b hb d hd => Htrans a (hmem a ha) b (hmem b hb) d (hmem d hd)
    have Hsl : ∀ a ∈ l, ∀ b ∈ l, sameCell a b → a.pss_pow = b.pss_pow → a = b :=
      fun a ha b hb => Hties a (hmem a ha) b (hmem b hb)
    obtain ⟨hnd, hchar⟩ := ih Htl Hsl
    rw [dedupFlat_append]
    have U : ∀ a ∈ dedupFlat l, ∀ b ∈ dedupFlat l, sameCell c a → sameCell c b → a = b := by
      intro a ha b hb hca hcb
      have hal := (hchar a).mp ha
      have hbl := (hchar b).mp hb
      have hab : sameCell a b :=
        Htrans a (hmem a hal.1) c hcmem b (hmem b hbl.1) (sameCell_symm hca) hcb
      have h1 : b.pss_pow ≤ a.pss_pow := hal.2 b hbl.1 hab
      have h2 : a.pss_pow ≤ b.pss_pow := hbl.2 a hal.1 (sameCell_symm hab)
      exact Hties a (hmem a hal.1) b (hmem b hbl.1) hab (le_antisymm h2 h1)
    by_cases hex : ∃ f ∈ dedupFlat l, sameCell c f
    case neg =>
      push_neg at hex
      have hstep : dedupStep c (dedupFlat l) = dedupFlat l ++ [c] :=
        dedupStep_of_no_match hex
      have hNM : ∀ y ∈ l, ¬ sameCell c y := by
        intro y hy hcy
        obtain ⟨m, hml, hym, hrep⟩ := exists_group_rep l Htl hy
        have hmacc : m ∈ dedupFlat l := (hchar m).mpr ⟨hml, hrep⟩
        have hcm : sameCell c m :=
          Htrans c hcmem y (hmem y hy) m (hmem m hml) hcy hym
        exact hex m hmacc hcm
      have hcnot : c ∉ dedupFlat l := fun hc => hex c hc (sameCell_refl c)
      constructor
      · rw [hstep]
        have h1 : (dedupFlat l ++ c :: []).Nodup ↔ (c :: (dedupFlat l ++ [])).Nodup :=
          List.nodup_middle
        rw [show dedupFlat l ++ [c] = dedupFlat l ++ c :: [] from rfl, h1]
        simp [List.nodup_cons, hcnot, hnd]
      · intro x
        rw [hstep]
        simp only [List.mem_append, List.mem_singleton]
        constructor
        · rintro (hx | rfl)
          · obtain ⟨hxl, hxmax⟩ := (hchar x).mp hx
            refine ⟨Or.inl hxl, ?_⟩
            rintro y (hyl | rfl) hxy
            · exact hxmax y hyl hxy
            · exact absurd (sameCell_symm hxy) (hex x hx)
          · refine ⟨Or.inr rfl, ?_⟩
            rintro y (hyl | rfl) hcy
            · exact absurd hcy (hNM y hyl)
            · exact le_refl _
        · rintro ⟨hxm, hxmax⟩
          rcases hxm with hxl | rfl
          · left
            refine (hchar x).mpr ⟨hxl, ?_⟩
            intro y hy hxy
            exact hxmax y (Or.inl hy) hxy
          · right
            rfl
    case pos =>
      obtain ⟨m, hmacc, hcm⟩ := hex
      obtain ⟨pre, post, hsp⟩ := List.append_of_mem hmacc
      have hnd2 : (pre ++ m :: post).Nodup := by rw [← hsp]; exact hnd
      have hnd' : (m :: (pre ++ post)).Nodup := List.nodup_middle.mp hnd2
      have hmnotin : m ∉ pre ++ post := (List.nodup_cons.mp hnd').1
      have hndpp : (pre ++ post).Nodup := (List.nodup_cons.mp hnd').2
      have haccperm : (dedupFlat l).Perm (m :: (pre ++ post)) := by
        rw [hsp]
        exact List.perm_middle
      have hmemacc : ∀ x, x ∈ dedupFlat l ↔ x = m ∨ x ∈ pre ++ post := by
        intro x
        rw [haccperm.mem_iff, List.mem_cons]
      have hpp_mem : ∀ x ∈ pre ++ post, x ∈ dedupFlat l ∧ x ≠ m := by
        intro x hx
        refine ⟨(hmemacc x).mpr (Or.inr hx), ?_⟩
        intro h
        subst h
        exact hmnotin hx
      have hml : m ∈ l := ((hchar m).mp hmacc).1
      have hmmax := ((hchar m).mp hmacc).2
      have hprenm : ∀ x ∈ pre, ¬ sameCell c x := by
        intro x hx hcx
        have hxacc : x ∈ dedupFlat l :=
          (hmemacc x).mpr (Or.inr (List.mem_append_left _ hx))
        have hxm : x = m := U x hxacc m hmacc hcx hcm
        subst hxm
        exact hmnotin (List.mem_append_left _ hx)
      have hstep : dedupStep c (dedupFlat l)
          = pre ++ (if c.pss_pow > m.pss_pow then c else m) :: post := by
        rw [hsp]
        exact dedupStep_first_match pre post hprenm hcm
      by_cases hpow : c.pss_pow > m.pss_pow
      · rw [hstep, if_pos hpow]
        have hcnotpp : c ∉ pre ++ post := by
          intro hc
          have hcacc := (hpp_mem c hc).1
          have hcmeq : c = m := U c hcacc m hmacc (sameCell_refl c) hcm
          rw [← hcmeq] at hpow
          exact absurd hpow (lt_irrefl _)
        constructor
        · exact List.nodup_middle.mpr (List.nodup_cons.mpr ⟨hcnotpp, hndpp⟩)
        · intro x
          have hxmem : x ∈ pre ++ c :: post ↔ x = c ∨ x ∈ pre ++ post := by
            rw [List.perm_middle.mem_iff, List.mem_cons]
          rw [hxmem]
          constructor
          · rintro (rfl | hx)
            · refine ⟨hcmem, ?_⟩
              intro y hy hcy
              rcases List.mem_append.mp hy with hyl | hyc
              · have hmy : sameCell m y :=
                  Htrans m (hmem m hml) x hcmem y (hmem y hyl) (sameCell_symm hcm) hcy
                exact (hmmax y hyl hmy).trans hpow.le
              · rw [List.mem_singleton] at hyc
                subst hyc
                exact le_refl _
            · obtain ⟨hxacc, hxne⟩ := hpp_mem x hx
              obtain ⟨hxl, hxmax⟩ := (hchar x).mp hxacc
              refine ⟨hmem x hxl, ?_⟩
              intro y hy hxy
              rcases List.mem_append.mp hy with hyl | hyc
              · exact hxmax y hyl hxy
              · rw [List.mem_singleton] at hyc
                subst hyc
                exact absurd (U x hxacc m hmacc (sameCell_symm hxy) hcm) hxne
          · rintro ⟨hxm, hxmax⟩
            rcases List.mem_append.mp hxm with hxl | hxc
            · have hxacc : x ∈ dedupFlat l :=
                (hchar x).mpr ⟨hxl, fun y hy hxy => hxmax y (hmem y hy) hxy⟩
              rcases (hmemacc x).mp hxacc with rfl | hx
              · exact absurd (hxmax c hcmem (sameCell_symm hcm)) (not_le.mpr hpow)
              · exact Or.inr hx
            · rw [List.mem_singleton] at hxc
              exact Or.inl hxc
      · rw [hstep, if_neg hpow, ← hsp]
        have hle : c.pss_pow ≤ m.pss_pow := not_lt.mp hpow
        refine ⟨hnd, ?_⟩
        intro x
        constructor
        · intro hxacc
          obtain ⟨hxl, hxmax⟩ := (hchar x).mp hxacc
          refine ⟨hmem x hxl, ?_⟩
          intro y hy hxy
          rcases List.mem_append.mp hy with hyl | hyc
          · exact hxmax y hyl hxy
          · rw [List.mem_singleton] at hyc
            subst hyc
            have hxm : x = m := U x hxacc m hmacc (sameCell_symm hxy) hcm
            subst hxm
            exact hle
        · rintro ⟨hxm, hxmax⟩
          rcases List.mem_append.mp hxm with hxl | hxc
          · exact (hchar x).mpr ⟨hxl, fun y hy hxy => hxmax y (hmem y hy) hxy⟩
          · rw [List.mem_singleton] at hxc
            subst hxc
            have hmc : m.pss_pow ≤ x.pss_pow := hxmax m (hmem m hml) hcm
            have hxmeq : x = m := Hties x hcmem m (hmem m hml) hcm (le_antisymm hle hmc)
            rw [hxmeq]
            exact hmacc

/-- Claim C2, amended: provided the same-cell match relation is transitive
on the input candidates and no two matching candidates tie exactly in
`pss_pow`, the membership of `dedup`'s output is independent of the
processing order (over center frequencies and within each per-frequency
list: any reordering of the flattened candidate sequence), and every kept
candidate is a maximum-power element of its match group. Without these
provisos the claim fails, since the 1 MHz proximity test is not
transitive. -/
theorem c2_order_independent (ll ll' : List (List Cell))
    (hperm : ll.flatten.Perm ll'.flatten)
    (Htrans : ∀ a ∈ ll.flatten, ∀ b ∈ ll.flatten, ∀ c ∈ ll.flatten,
      sameCell a b → sameCell b c → sameCell a c)
    (Hties : ∀ a ∈ ll.flatten, ∀ b ∈ ll.flatten,
      sameCell a b → a.pss_pow = b.pss_pow → a = b) :
    (∀ x, x ∈ dedup ll' ↔ x ∈ dedup ll) ∧
    (∀ x ∈ dedup ll, x ∈ ll.flatten ∧
      ∀ y ∈ ll.flatten, sameCell x y → y.pss_pow ≤ x.pss_pow) := by
  have Htrans' : ∀ a ∈ ll'.flatten, ∀ b ∈ ll'.flatten, ∀ c ∈ ll'.flatten,
      sameCell a b → sameCell b c → sameCell a c :=
    fun a ha b hb c hc => Htrans a (hperm.mem_iff.mpr ha) b (hperm.mem_iff.mpr hb)
      c (hperm.mem_iff.mpr hc)
  have Hties' : ∀ a ∈ ll'.flatten, ∀ b ∈ ll'.flatten,
      sameCell a b → a.pss_pow = b.pss_pow → a = b :=
    fun a ha b hb => Hties a (hperm.mem_iff.mpr ha) b (hperm.mem_iff.mpr hb)
  obtain ⟨-, hchar⟩ := dedupFlat_char ll.flatten Htrans Hties
  obtain ⟨-, hchar'⟩ := dedupFlat_char ll'.flatten Htrans' Hties'
  constructor
  · intro x
    rw [dedup_eq_dedupFlat, dedup_eq_dedupFlat, hchar x, hchar' x]
    constructor
    · rintro ⟨h1, h2⟩
      exact ⟨hperm.mem_iff.mpr h1, fun y hy hxy => h2 y (hperm.mem_iff.mp hy) hxy⟩
    · rintro ⟨h1, h2⟩
      exact ⟨hperm.mem_iff.mp h1, fun y hy hxy => h2 y (hperm.mem_iff.mpr hy) hxy⟩
  · intro x hx
    rw [dedup_eq_dedupFlat] at hx
    exact (hchar x).mp hx

/-- Witness for claim C2: a transitive, tie-free two-candidate input
processed in both center-frequency orders; membership agrees and the kept
candidate dominates its group. -/
theorem c2_order_independent_witness :
    (∀ x, x ∈ dedup [[cellP9], [cellP0]] ↔ x ∈ dedup [[cellP0], [cellP9]]) ∧
    (∀ x ∈ dedup [[cellP0], [cellP9]], x ∈ [[cellP0], [cellP9]].flatten ∧
      ∀ y ∈ [[cellP0], [cellP9]].flatten, sameCell x y → y.pss_pow ≤ x.pss_pow) := by
  have hpair : ∀ u ∈ [cellP0, cellP9], ∀ v ∈ [cellP0, cellP9], sameCell u v := by
    intro u hu v hv
    rcases List.mem_cons.mp hu with rfl | hu'
    · rcases List.mem_cons.mp hv with rfl | hv'
      · exact sameCell_refl _
      · rw [List.mem_singleton] at hv'
        subst hv'
        exact ⟨rfl, by norm_num [corrFreq, cellP0, cellP9]⟩
    · rw [List.mem_singleton] at hu'
      subst hu'
      rcases List.mem_cons.mp hv with rfl | hv'
      · exact ⟨rfl, by norm_num [corrFreq, cellP0, cellP9]⟩
      · rw [List.mem_singleton] at hv'
        subst hv'
        exact sameCell_refl _
  have hfl : [[cellP0], [cellP9]].flatten = [cellP0, cellP9] := rfl
  have hfl' : [[cellP9], [cellP0]].flatten = [cellP9, cellP0] := rfl
  refine c2_order_independent [[cellP0], [cellP9]] [[cellP9], [cellP0]] ?_ ?_ ?_
  · rw [hfl, hfl']
    exact List.Perm.swap cellP9 cellP0 []
  · rw [hfl]
    intro a ha b hb c hc hab hbc
    exact hpair a ha c hc
  · rw [hfl]
    intro a ha b hb hs hp
    rcases List.mem_cons.mp ha with rfl | ha'
    · rcases List.mem_cons.mp hb with rfl | hb'
      · rfl
      · rw [List.mem_singleton] at hb'
        subst hb'
        exfalso
        norm_num [cellP0, cellP9] at hp
    · rw [List.mem_singleton] at ha'
      subst ha'
      rcases List.mem_cons.mp hb with rfl | hb'
      · exfalso
        norm_num [cellP0, cellP9] at hp
      · rw [List.mem_singleton] at hb'
        subst hb'
        rfl

/-- Modelled from the spec: the survival function of the chi-squared
distribution with `2*m` degrees of freedom (the degrees of freedom passed
at CellSearch.cpp line 362 are always even), in its closed form
`exp(-x/2) * sum_(k<m) (x/2)^k / k!`. The boost quantile routine
`chi2cdf_inv` called by the source is not among the sources here; its
specification "inverse CDF of a chi-squared distribution" is rendered
relationally by `IsChi2Quantile` below. -/
noncomputable def chi2tail (m : ℕ) (x : ℝ) : ℝ :=
  Real.exp (-(x / 2)) * ∑ k ∈ Finset.range m, (x / 2) ^ k / (Nat.factorial k)

/-- Modelled from the spec: `R = chi2cdf_inv(p, 2*m)` means that `R` is a
nonnegative point where the chi-squared CDF with `2*m` degrees of freedom,
`1 - chi2tail m`, takes the value `p`. -/
def IsChi2Quantile (m : ℕ) (p R : ℝ) : Prop := 0 ≤ R ∧ 1 - chi2tail m R = p

/-- The incoherent combining arm, `#define DS_COMB_ARM 2`, CellSearch.cpp
line 345. -/
def DS_COMB_ARM : ℕ := 2

/-- Modelled from the spec: the constant `FS_LTE` of constants.h (not
among the sources here), the LTE sampling rate of 30.72 MHz entering the
receiver-bandwidth normalization `rx_cutoff`. -/
def FS_LTE : ℝ := 30720000

/-- The receiver-bandwidth normalization of CellSearch.cpp line 363:
`(6*12*15e3/2+4*15e3)/(FS_LTE/16/2)`. -/
noncomputable def rx_cutoff : ℝ := (6 * 12 * 15000 / 2 + 4 * 15000) / (FS_LTE / 16 / 2)

/-- One entry of the threshold vector of CellSearch.cpp line 364:
`R_th1*sp_incoherent/rx_cutoff/137/2/n_comb_xc/(2*DS_COMB_ARM+1)`, with
`R` the chi-squared quantile `R_th1`, `sp` the per-bin noise estimate
`sp_incoherent(i)` and `n` the hypothesis count `n_comb_xc`. -/
noncomputable def Z_th1 (R sp : ℝ) (n : ℕ) : ℝ :=
  R * sp / rx_cutoff / 137 / 2 / (n : ℝ) / ((2 * DS_COMB_ARM + 1 : ℕ) : ℝ)

theorem chi2tail_continuous (m : ℕ) : Continuous (chi2tail m) := by
  apply Continuous.mul
  · exact Real.continuous_exp.comp (by continuity)
  · apply continuous_finset_sum
    intro k _
    exact Continuous.div_const (Continuous.pow (by continuity) k) _

theorem chi2tail_zero : chi2tail 10 0 = 1 := by
  rw [chi2tail]
  norm_num [Finset.sum_range_succ, Nat.factorial]

theorem tail5_78 : (1:ℝ)/10^12 ≤ chi2tail 5 78 := by
  rw [chi2tail]
  have hsum : ∑ k ∈ Finset.range 5, ((78:ℝ)/2)^k / (Nat.factorial k) = 856643/8 := by
    simp [Finset.sum_range_succ, Nat.factorial]
    norm_num
  rw [hsum]
  have h2 : -((78:ℝ)/2) = -39 := by norm_num
  rw [h2, Real.exp_neg, inv_mul_eq_div, div_le_div_iff₀ (by positivity) (Real.exp_pos 39)]
  have h3 : Real.exp 39 < (272/100 : ℝ) ^ (39 : ℕ) := by
    have h1 : Real.exp 39 = Real.exp 1 ^ (39 : ℕ) := by
      rw [← Real.exp_nat_mul]; norm_num
    rw [h1]
    exact pow_lt_pow_left₀ (lt_trans Real.exp_one_lt_d9 (by norm_num)) (Real.exp_pos 1).le
      (by norm_num)
  refine le_of_lt ?_
  calc 1 * Real.exp 39 < (272/100 : ℝ) ^ (39 : ℕ) := by linarith
    _ ≤ 856643/8 * 10^12 := by norm_num

theorem tail5_200 : chi2tail 5 200 ≤ (1:ℝ)/10^12 := by
  rw [chi2tail]
  have hsum : ∑ k ∈ Finset.range 5, ((200:ℝ)/2)^k / (Nat.factorial k) = 13015303/3 := by
    simp [Finset.sum_range_succ, Nat.factorial]
    norm_num
  rw [hsum]
  have h2 : -((200:ℝ)/2) = -100 := by norm_num
  rw [h2, Real.exp_neg, inv_mul_eq_div, div_le_div_iff₀ (Real.exp_pos 100) (by positivity)]
  have h3 : (27/10 : ℝ) ^ (100 : ℕ) < Real.exp 100 := by
    have h1 : Real.exp 100 = Real.exp 1 ^ (100 : ℕ) := by
      rw [← Real.exp_nat_mul]; norm_num
    rw [h1]
    exact pow_lt_pow_left₀ (lt_trans (by norm_num) Real.exp_one_gt_d9) (by norm_num)
      (by norm_num)
  refine le_of_lt ?_
  calc (13015303:ℝ)/3 * 10^12 ≤ (27/10 : ℝ) ^ (100 : ℕ) := by norm_num
    _ < Real.exp 100 := h3
    _ = 1 * Real.exp 100 := by ring

theorem tail10_156 : chi2tail 10 156 < (1:ℝ)/10^12 := by
  rw [chi2tail]
  have hsum : ∑ k ∈ Finset.range 10, ((156:ℝ)/2)^k / (Nat.factorial k) = 11630738051903/35 := by
    simp [Finset.sum_range_succ, Nat.factorial]
    norm_num
  rw [hsum]
  have h2 : -((156:ℝ)/2) = -78 := by norm_num
  rw [h2, Real.exp_neg, inv_mul_eq_div, div_lt_div_iff₀ (Real.exp_pos 78) (by positivity)]
  have h3 : (27/10 : ℝ) ^ (78 : ℕ) < Real.exp 78 := by
    have h1 : Real.exp 78 = Real.exp 1 ^ (78 : ℕ) := by
      rw [← Real.exp_nat_mul]; norm_num
    rw [h1]
    exact pow_lt_pow_left₀ (lt_trans (by norm_num) Real.exp_one_gt_d9) (by norm_num)
      (by norm_num)
  calc (11630738051903:ℝ)/35 * 10^12 < (27/10 : ℝ) ^ (78 : ℕ) := by norm_num
    _ < Real.exp 78 := h3
    _ = 1 * Real.exp 78 := by ring

theorem exists_R1 : ∃ R ∈ Set.Icc (78:ℝ) 200, chi2tail 5 R = 1/10^12 := by
  have hsub := intermediate_value_Icc' (by norm_num : (78:ℝ) ≤ 200)
    (chi2tail_continuous 5).continuousOn
  obtain ⟨R, hR, hReq⟩ := hsub ⟨tail5_200, tail5_78⟩
  exact ⟨R, hR, hReq⟩

theorem exists_R2 : ∃ R ∈ Set.Icc (0:ℝ) 156, chi2tail 10 R = 1/10^12 := by
  have hsub := intermediate_value_Icc' (by norm_num : (0:ℝ) ≤ 156)
    (chi2tail_continuous 10).continuousOn
  obtain ⟨R, hR, hReq⟩ := hsub ⟨tail10_156.le, by rw [chi2tail_zero]; norm_num⟩
  exact ⟨R, hR, hReq⟩

/-- Counterexample for claim C7: the per-bin threshold is not
monotonically increasing in the hypothesis count `n_comb_xc`. With the
12-nines budget, the chi-squared quantile for 10 degrees of freedom
(`n_comb_xc = 1`) is at least 78 while the quantile for 20 degrees of
freedom (`n_comb_xc = 2`) is below 156 = 2*78, so after the division by
`n_comb_xc` the threshold strictly decreases from `n_comb_xc = 1` to 2 at
equal noise power. -/
theorem c7_counterexample :
    ¬ (∀ (n n' : ℕ) (R R' sp sp' : ℝ), 0 < n → n ≤ n' → 0 ≤ sp → sp ≤ sp' →
        IsChi2Quantile (n * (2 * DS_COMB_ARM + 1)) (1 - 1/10^12) R →
        IsChi2Quantile (n' * (2 * DS_COMB_ARM + 1)) (1 - 1/10^12) R' →
        Z_th1 R sp n ≤ Z_th1 R' sp' n') := by
  intro hmono
  obtain ⟨R1, hR1m, hR1⟩ := exists_R1
  obtain ⟨R2, hR2m, hR2⟩ := exists_R2
  have hq1 : IsChi2Quantile (1 * (2 * DS_COMB_ARM + 1)) (1 - 1/10^12) R1 := by
    refine ⟨by linarith [hR1m.1], ?_⟩
    have h5 : 1 * (2 * DS_COMB_ARM + 1) = 5 := by norm_num [DS_COMB_ARM]
    rw [h5, hR1]
  have hq2 : IsChi2Quantile (2 * (2 * DS_COMB_ARM + 1)) (1 - 1/10^12) R2 := by
    refine ⟨hR2m.1, ?_⟩
    have h10 : 2 * (2 * DS_COMB_ARM + 1) = 10 := by norm_num [DS_COMB_ARM]
    rw [h10, hR2]
  have happ := hmono 1 2 R1 R2 1 1 (by norm_num) (by norm_num) (by norm_num) (le_refl 1) hq1 hq2
  have hrx : rx_cutoff = 5/8 := by norm_num [rx_cutoff, FS_LTE]
  have e1 : Z_th1 R1 1 1 = R1 * (4/3425) := by
    rw [Z_th1, hrx]
    norm_num [DS_COMB_ARM]
    ring
  have e2 : Z_th1 R2 1 2 = R2 * (2/3425) := by
    rw [Z_th1, hrx]
    norm_num [DS_COMB_ARM]
    ring
  rw [e1, e2] at happ
  have hR2lt : R2 < 156 := by
    rcases lt_or_eq_of_le hR2m.2 with h | h
    · exact h
    · exfalso
      rw [h] at hR2
      linarith [tail10_156, hR2.ge, hR2.le]
  have hR1ge : (78:ℝ) ≤ R1 := hR1m.1
  nlinarith [happ, hR2lt, hR1ge]

theorem rx_cutoff_nonneg : (0:ℝ) ≤ rx_cutoff := by norm_num [rx_cutoff, FS_LTE]

/-- Claim C7, amended: for a fixed false-alarm budget, combining arm,
hypothesis count and (nonnegative) chi-squared quantile, every entry of the
threshold vector is monotonically increasing in the noise-power estimate
`sp_incoherent`; the claimed monotonicity in the hypothesis count
`n_comb_xc` does not hold (see the counterexample). -/
theorem c7_threshold_monotone_in_noise (n : ℕ) (R sp sp' : ℝ)
    (hR : 0 ≤ R) (hle : sp ≤ sp') :
    Z_th1 R sp n ≤ Z_th1 R sp' n := by
  have hform : ∀ s : ℝ, Z_th1 R s n
      = s * (R / (rx_cutoff * 137 * 2 * (n : ℝ) * ((2 * DS_COMB_ARM + 1 : ℕ) : ℝ))) := by
    intro s
    rw [Z_th1]
    ring
  rw [hform sp, hform sp']
  apply mul_le_mul_of_nonneg_right hle
  refine div_nonneg hR ?_
  exact mul_nonneg (mul_nonneg (mul_nonneg (mul_nonneg rx_cutoff_nonneg (by norm_num))
    (by norm_num)) (Nat.cast_nonneg n)) (Nat.cast_nonneg _)

/-- Witness for claim C7: doubling the noise estimate does not lower the
threshold at quantile 78, one hypothesis. -/
theorem c7_threshold_monotone_in_noise_witness : Z_th1 78 1 1 ≤ Z_th1 78 2 1 :=
  c7_threshold_monotone_in_noise 1 78 1 2 (by norm_num) (by norm_num)

/-- Counterexample for claim C8: the threshold is not
`R * sp / rx_cutoff / n_comb_xc / (2*DS_COMB_ARM+1)` as the claim's list of
divisors states; the source divides additionally by the constant 137*2, so
at `R = sp = 1`, `n_comb_xc = 1` the two expressions differ (4/3425 versus
8/25). -/
theorem c8_counterexample :
    Z_th1 1 1 1 ≠ 1 * 1 / rx_cutoff / (1 : ℝ) / ((2 * DS_COMB_ARM + 1 : ℕ) : ℝ) := by
  norm_num [Z_th1, rx_cutoff, FS_LTE, DS_COMB_ARM]

/-- Claim C8, amended: the threshold entry equals the chi-squared quantile
times the noise estimate divided by the receiver-bandwidth normalization,
the fixed constant 137*2, the hypothesis count and the combining width;
the degrees of freedom passed to the quantile are exactly
`2 * n_comb_xc * (2*DS_COMB_ARM+1)` (the `2*m` convention of
`IsChi2Quantile` with `m = n_comb_xc * (2*DS_COMB_ARM+1)`). -/
theorem c8_threshold_formula (n : ℕ) (R sp : ℝ) :
    Z_th1 R sp n = R * sp / (rx_cutoff * 137 * 2 * (n : ℝ) * ((2 * DS_COMB_ARM + 1 : ℕ) : ℝ)) ∧
    2 * (n * (2 * DS_COMB_ARM + 1)) = 2 * n * (2 * DS_COMB_ARM + 1) := by
  constructor
  · rw [Z_th1]
    ring
  · ring
